import Mathlib

/-
Shallow embedding of the delivery-cost API core (api.py, the active second
implementation): the product catalog, distance table, segment pricing,
route enumeration, route cost evaluation and the overall minimum-cost
routine.  Weights, distances and costs are modelled as rationals; the
float infinity used for missing distances and infeasible routes is
modelled with Option (none standing for infinity).
-/

/-- The four locations: three warehouses (called centers in the source)
and the destination L1. -/
inductive Loc
  | C1
  | C2
  | C3
  | L1
deriving DecidableEq

open Loc

/-- CENTERS list from the source. -/
def CENTERS : List Loc := [C1, C2, C3]

/-- EPSILON = 1e-9 from the source. -/
def EPSILON : ℚ := 1 / 1000000000

/-- PRODUCTS table from the source: code, stocking center, unit weight. -/
def PRODUCTS : List (String × Loc × ℚ) :=
  [("A", (C1, 3)), ("B", (C1, 2)), ("C", (C1, 8)),
   ("D", (C2, 12)), ("E", (C2, 25)), ("F", (C2, 15)),
   ("G", (C3, 1/2)), ("H", (C3, 1)), ("I", (C3, 2))]

/-- Catalog lookup: PRODUCTS.get in the source (membership test plus field
access). -/
def findProduct (p : String) : Option (Loc × ℚ) :=
  (PRODUCTS.find? (fun e => e.1 == p)).map (fun e => e.2)

/-- DISTANCES dict from the source; pairs absent from the table map to
none (float infinity in the source). -/
def DISTANCES : Loc × Loc → Option ℚ
  | (C1, L1) => some 3
  | (L1, C1) => some 3
  | (C2, L1) => some (5/2)
  | (L1, C2) => some (5/2)
  | (C3, L1) => some 2
  | (L1, C3) => some 2
  | (C1, C2) => some 4
  | (C2, C1) => some 4
  | (C2, C3) => some 3
  | (C3, C2) => some 3
  | _ => none

/-- get_distance from the source: 0 for equal locations, otherwise the
table entry in either direction, infinity (none) when absent. -/
def get_distance (loc1 loc2 : Loc) : Option ℚ :=
  if loc1 = loc2 then some 0
  else
    match DISTANCES (loc1, loc2) with
    | some d => some d
    | none => DISTANCES (loc2, loc1)

/-- The cost_per_km step function computed inside calculate_segment_cost. -/
def cost_per_km (weight : ℚ) : ℚ :=
  if weight ≤ EPSILON then 10
  else if weight ≤ 5 + EPSILON then 10
  else 10 + 8 * (⌈(weight - 5) / 5⌉ : ℤ)

/-- calculate_segment_cost from the source; an infinite distance is the
none case. -/
def calculate_segment_cost (weight : ℚ) (distance : Option ℚ) : ℚ :=
  match distance with
  | none => 0
  | some d => if d ≤ 0 then 0 else cost_per_km weight * d

/-- One route built by generate_all_routes for a given permutation and a
drop position j (the source variable drop_indices is j + 1): insert L1
after the first j + 1 centers and append a final L1 when the last element
is not already L1. -/
def insertDrop (perm : List Loc) (j : ℕ) : List Loc :=
  let r := perm.take (j + 1) ++ [L1] ++ perm.drop (j + 1)
  if r.getLast? = some L1 then r else r ++ [L1]

/-- generate_all_routes from the source: all permutations of the centers,
each with every possible single L1 insertion position. -/
def generate_all_routes (centers : List Loc) : List (List Loc) :=
  centers.permutations'.flatMap (fun perm =>
    (List.range perm.length).map (insertDrop perm))

/-- The loop of calculate_cost_for_route: walk the remaining route,
tracking the previous location, carried weight, already-picked centers and
the accumulated cost. -/
def routeLoop (W : Loc → ℚ) : List Loc → Loc → ℚ → List Loc → ℚ → ℚ
  | [], _, _, _, cost => cost
  | loc_to :: rest, loc_from, carried, picked, cost =>
    let cost2 := cost + calculate_segment_cost carried (get_distance loc_from loc_to)
    if loc_to = L1 then
      routeLoop W rest loc_to 0 picked cost2
    else if loc_to ∈ CENTERS ∧ loc_to ∉ picked then
      routeLoop W rest loc_to (carried + W loc_to) (loc_to :: picked) cost2
    else
      routeLoop W rest loc_to carried picked cost2

/-- calculate_cost_for_route from the source: infinite (none) when the
route starts at L1, otherwise the summed segment costs.  The source
indexes route[0] unconditionally; the empty route, which the enumerator
never produces, is mapped to none here. -/
def calculate_cost_for_route (route : List Loc) (W : Loc → ℚ) : Option ℚ :=
  match route with
  | [] => none
  | loc0 :: rest =>
    if loc0 = L1 then none
    else if loc0 ∈ CENTERS then some (routeLoop W rest loc0 (W loc0) [loc0] 0)
    else some (routeLoop W rest loc0 0 [] 0)

/-- An order as passed to _calculate_overall_minimum_cost: product code to
quantity. -/
abbrev OrderData := List (String × ℤ)

/-- The per-center aggregate weights and involvement flags accumulated by
the demand-aggregation loop of _calculate_overall_minimum_cost. -/
structure Demand where
  wC1 : ℚ
  wC2 : ℚ
  wC3 : ℚ
  iC1 : Bool
  iC2 : Bool
  iC3 : Bool
deriving DecidableEq

/-- The weight_from_center mapping of a demand (0 at L1, which the source
never queries there). -/
def Demand.wfc (d : Demand) : Loc → ℚ
  | C1 => d.wC1
  | C2 => d.wC2
  | C3 => d.wC3
  | L1 => 0

/-- The involved_centers set of a demand, listed in CENTERS order. -/
def Demand.involved (d : Demand) : List Loc :=
  (if d.iC1 then [C1] else []) ++ (if d.iC2 then [C2] else []) ++
    (if d.iC3 then [C3] else [])

/-- Initial demand: weight_from_center all zero, no involved centers. -/
def initDemand : Demand := ⟨0, 0, 0, false, false, false⟩

/-- Add picked-up weight at a center and mark it involved. -/
def addWeight (d : Demand) (c : Loc) (w : ℚ) : Demand :=
  match c with
  | C1 => { d with wC1 := d.wC1 + w, iC1 := true }
  | C2 => { d with wC2 := d.wC2 + w, iC2 := true }
  | C3 => { d with wC3 := d.wC3 + w, iC3 := true }
  | L1 => d

/-- One iteration of the demand-aggregation loop: entries with quantity
at most 0 or an unknown product code are skipped. -/
def aggStep (d : Demand) (e : String × ℤ) : Demand :=
  match findProduct e.1 with
  | none => d
  | some (c, w) => if e.2 ≤ 0 then d else addWeight d c (w * (e.2 : ℚ))

/-- The demand-aggregation loop of _calculate_overall_minimum_cost. -/
def aggregate (order : OrderData) : Demand :=
  order.foldl aggStep initDemand

/-- Two-argument minimum on costs where none stands for float infinity. -/
def minOpt : Option ℚ → Option ℚ → Option ℚ
  | none, b => b
  | some x, none => some x
  | some x, some y => some (min x y)

/-- The minimisation loop of _calculate_overall_minimum_cost over the
generated routes. -/
def routesMinCost (routes : List (List Loc)) (W : Loc → ℚ) : Option ℚ :=
  routes.foldl (fun acc r => minOpt acc (calculate_cost_for_route r W)) none

/-- Python round: nearest integer, ties to even. -/
def pythonRound (q : ℚ) : ℤ :=
  let f := ⌊q⌋
  let r := q - (f : ℚ)
  if r < 1/2 then f
  else if r = 1/2 then (if f % 2 = 0 then f else f + 1)
  else f + 1

/-- _calculate_overall_minimum_cost from the source: aggregate demand,
short-circuit to (0, none) when no center is involved, otherwise minimise
the evaluated cost over all generated routes, returning the rounded
minimum or the no-route error. -/
def _calculate_overall_minimum_cost (order : OrderData) :
    Option ℤ × Option String :=
  let d := aggregate order
  if d.involved = [] then (some 0, none)
  else
    match routesMinCost (generate_all_routes d.involved) d.wfc with
    | none => (none, some "No valid delivery route found")
    | some q => (some (pythonRound q), none)

/-
Helper lemmas.
-/

lemma calculate_segment_cost_none (w : ℚ) :
    calculate_segment_cost w none = 0 := rfl

lemma calculate_segment_cost_some (w d : ℚ) :
    calculate_segment_cost w (some d) =
      if d ≤ 0 then 0 else cost_per_km w * d := rfl

lemma aggStep_skip (d : Demand) (e : String × ℤ)
    (h : e.2 ≤ 0 ∨ findProduct e.1 = none) : aggStep d e = d := by
  unfold aggStep
  rcases hf : findProduct e.1 with _ | cw
  · rfl
  · rcases h with h | h
    · simp [h]
    · rw [hf] at h; exact absurd h (by simp)

lemma foldl_aggStep_skip (l : OrderData) (d : Demand)
    (h : ∀ e ∈ l, e.2 ≤ 0) : l.foldl aggStep d = d := by
  induction l generalizing d with
  | nil => rfl
  | cons e t ih =>
    have he : aggStep d e = d := aggStep_skip d e (Or.inl (h e (by simp)))
    simp only [List.foldl_cons, he]
    exact ih d (fun x hx => h x (by simp [hx]))

/-
Claims C8, C10, C1, C3, C4.
-/

/-- Claim C8: for every order that is empty or in which every entry has
quantity at most 0, the optimizer returns cost 0 with no error; the
involved-center set is empty, so the guard returns before the route
enumerator is invoked. -/
theorem claim_C8 (order : OrderData) (h : ∀ e ∈ order, e.2 ≤ 0) :
    (aggregate order).involved = [] ∧
    _calculate_overall_minimum_cost order = (some 0, none) := by
  have hagg : aggregate order = initDemand := foldl_aggStep_skip order initDemand h
  constructor
  · rw [hagg]; rfl
  · unfold _calculate_overall_minimum_cost
    rw [hagg]; rfl

/-- Witness for claim C8 at a concrete all-nonpositive order. -/
theorem claim_C8_witness :
    (∀ e ∈ ([("A", 0), ("B", -2)] : OrderData), e.2 ≤ 0) ∧
    ((aggregate [("A", 0), ("B", -2)]).involved = [] ∧
      _calculate_overall_minimum_cost [("A", 0), ("B", -2)] = (some 0, none)) :=
  ⟨by decide, claim_C8 _ (by decide)⟩

/-- Claim C10: adding or removing an order entry whose quantity is at most
0 or whose product code is not in the catalog leaves the (cost, error)
result of the core unchanged. -/
theorem claim_C10 (pre post : OrderData) (p : String) (q : ℤ)
    (h : q ≤ 0 ∨ findProduct p = none) :
    _calculate_overall_minimum_cost (pre ++ (p, q) :: post) =
      _calculate_overall_minimum_cost (pre ++ post) := by
  have hagg : aggregate (pre ++ (p, q) :: post) = aggregate (pre ++ post) := by
    unfold aggregate
    rw [List.foldl_append, List.foldl_append, List.foldl_cons,
      aggStep_skip _ _ h]
  unfold _calculate_overall_minimum_cost
  rw [hagg]

/-- Witness for claim C10 at a concrete order and an unknown product code. -/
theorem claim_C10_witness :
    ((1 : ℤ) ≤ 0 ∨ findProduct "Z" = none) ∧
    _calculate_overall_minimum_cost [("A", 2), ("Z", 1)] =
      _calculate_overall_minimum_cost [("A", 2)] :=
  ⟨Or.inr (by decide), claim_C10 [("A", 2)] [] "Z" 1 (Or.inr (by decide))⟩

/-- Counterexample to claim C1 as stated: the pair (C1, C3) is distinct
and absent from the distance table, yet the route C1, C3, L1 is priced at
the finite cost 20 (the unreachable segment contributes 0), not at the
infeasible sentinel. -/
theorem claim_C1_counterexample :
    Loc.C1 ≠ Loc.C3 ∧ get_distance Loc.C1 Loc.C3 = none ∧
    calculate_cost_for_route [Loc.C1, Loc.C3, Loc.L1]
      (Demand.mk 3 0 1 true false true).wfc = some 20 := by
  have hd1 : get_distance C1 C3 = none := rfl
  have hd2 : get_distance C3 L1 = some 2 := rfl
  refine ⟨by decide, hd1, ?_⟩
  norm_num [calculate_cost_for_route, routeLoop, CENTERS, Demand.wfc,
    hd1, hd2, calculate_segment_cost_none, calculate_segment_cost_some,
    cost_per_km, EPSILON]
  exact fun h => Loc.noConfusion h

/-- Claim C1 amended: the route cost evaluator returns the infeasible
sentinel exactly for the non-empty routes that start at the destination
L1; a route containing an unreachable segment is still priced finitely,
the unreachable segment contributing cost 0. -/
theorem claim_C1 (route : List Loc) (W : Loc → ℚ) (h : route ≠ []) :
    (calculate_cost_for_route route W = none ↔ route.head? = some Loc.L1) ∧
    (∀ w : ℚ, calculate_segment_cost w none = 0) := by
  refine ⟨?_, fun w => rfl⟩
  cases route with
  | nil => exact absurd rfl h
  | cons a rest =>
    by_cases ha : a = Loc.L1
    · subst ha; simp [calculate_cost_for_route]
    · simp only [calculate_cost_for_route, List.head?_cons, if_neg ha]
      split <;> simp [ha]

/-- Witness for claim C1 at a concrete route starting at L1. -/
theorem claim_C1_witness :
    ([Loc.L1, Loc.C1] : List Loc) ≠ [] ∧
    ((calculate_cost_for_route [Loc.L1, Loc.C1] (fun _ => 0) = none ↔
        ([Loc.L1, Loc.C1] : List Loc).head? = some Loc.L1) ∧
      (∀ w : ℚ, calculate_segment_cost w none = 0)) :=
  ⟨by decide, claim_C1 [Loc.L1, Loc.C1] (fun _ => 0) (by decide)⟩

/-- Counterexample to claim C3 as stated: at weight 5 + EPSILON (strictly
greater than 5) and distance 1, the code prices the segment at rate 10,
while the claimed formula for weights above 5 gives rate 18. -/
theorem claim_C3_counterexample :
    calculate_segment_cost (5 + EPSILON) (some 1) = 10 ∧
    calculate_segment_cost (5 + EPSILON) (some 1) ≠
      (10 + 8 * ((⌈((5 + EPSILON) - 5) / 5⌉ : ℤ) : ℚ)) * 1 := by
  have hceil : ⌈((5 + EPSILON) - 5) / 5⌉ = 1 := by
    rw [show ((5 + EPSILON) - 5) / 5 = EPSILON / 5 by ring]
    refine Int.ceil_eq_iff.mpr ⟨?_, ?_⟩ <;> push_cast <;> norm_num [EPSILON]
  constructor
  · norm_num [calculate_segment_cost, cost_per_km, EPSILON]
  · rw [hceil]
    norm_num [calculate_segment_cost, cost_per_km, EPSILON]

/-- Claim C3 amended: segment cost is 0 for an infinite (absent) or
nonpositive distance; for a positive distance d it is rate times d, where
the rate is 10 for weights up to 5 + EPSILON and
10 + 8 * ceil((w - 5) / 5) for weights above 5 + EPSILON. -/
theorem claim_C3 (w : ℚ) :
    calculate_segment_cost w none = 0 ∧
    ∀ d : ℚ,
      (d ≤ 0 → calculate_segment_cost w (some d) = 0) ∧
      (0 < d → calculate_segment_cost w (some d) =
        (if w ≤ 5 + EPSILON then (10 : ℚ)
          else 10 + 8 * ((⌈(w - 5) / 5⌉ : ℤ) : ℚ)) * d) := by
  refine ⟨rfl, fun d => ⟨fun hd => ?_, fun hd => ?_⟩⟩
  · simp [calculate_segment_cost, hd]
  · simp only [calculate_segment_cost, if_neg (not_le.mpr hd)]
    congr 1
    unfold cost_per_km
    have heps : (0 : ℚ) < EPSILON := by norm_num [EPSILON]
    split_ifs with h1 h2 h3 <;> first | rfl | linarith

/-- Witness for claim C3 at weight 7 and distance 3. -/
theorem claim_C3_witness :
    (0 : ℚ) < 3 ∧
    calculate_segment_cost 7 (some 3) =
      (if (7 : ℚ) ≤ 5 + EPSILON then (10 : ℚ)
        else 10 + 8 * ((⌈((7 : ℚ) - 5) / 5⌉ : ℤ) : ℚ)) * 3 :=
  ⟨by norm_num, ((claim_C3 7).2 3).2 (by norm_num)⟩

/-- Claim C4: with the epsilon tolerance applied at the 5-unit tier
boundary, a carried weight of exactly 5 is priced at the base rate 10 per
distance unit, and any weight exceeding the boundary by more than the
tolerance (within the next 5-unit block) is priced at rate 18. -/
theorem claim_C4 (d : ℚ) (hd : 0 < d) :
    calculate_segment_cost 5 (some d) = 10 * d ∧
    ∀ ε : ℚ, EPSILON < ε → ε ≤ 5 →
      calculate_segment_cost (5 + ε) (some d) = 18 * d := by
  have heps : (0 : ℚ) < EPSILON := by norm_num [EPSILON]
  constructor
  · simp only [calculate_segment_cost, if_neg (not_le.mpr hd)]
    congr 1
    unfold cost_per_km
    split_ifs with h1 h2 <;> first | rfl | linarith [show EPSILON < 5 from by norm_num [EPSILON]]
  · intro ε hε1 hε2
    simp only [calculate_segment_cost, if_neg (not_le.mpr hd)]
    have hw : ¬(5 + ε ≤ 5 + EPSILON) := by linarith
    have hw2 : ¬(5 + ε ≤ EPSILON) := by linarith
    unfold cost_per_km
    rw [if_neg hw2, if_neg hw]
    have hceil : ⌈(5 + ε - 5) / 5⌉ = 1 := by
      rw [show (5 + ε - 5) / 5 = ε / 5 by ring]
      refine Int.ceil_eq_iff.mpr ⟨?_, ?_⟩
      · push_cast; linarith
      · push_cast; linarith
    rw [hceil]
    norm_num

/-- Witness for claim C4 at distance 2 and boundary excess 1. -/
theorem claim_C4_witness :
    (0 : ℚ) < 2 ∧ EPSILON < 1 ∧ (1 : ℚ) ≤ 5 ∧
    calculate_segment_cost 5 (some 2) = 10 * 2 ∧
    calculate_segment_cost (5 + 1) (some 2) = 18 * 2 :=
  ⟨by norm_num, by norm_num [EPSILON], by norm_num,
    (claim_C4 2 (by norm_num)).1,
    (claim_C4 2 (by norm_num)).2 1 (by norm_num [EPSILON]) (by norm_num)⟩

/-
Route enumerator lemmas.
-/

lemma minOpt_none_left (b : Option ℚ) : minOpt none b = b := rfl

lemma L1_not_involved (d : Demand) : Loc.L1 ∉ d.involved := by
  rcases d with ⟨w1, w2, w3, i1, i2, i3⟩
  cases i1 <;> cases i2 <;> cases i3 <;> simp [Demand.involved]

lemma mem_CENTERS_of_ne (c : Loc) (h : c ≠ Loc.L1) : c ∈ CENTERS := by
  cases c <;> simp_all [CENTERS]

lemma gen_singleton (w : Loc) : generate_all_routes [w] = [[w, Loc.L1]] := by
  cases w <;> rfl

lemma mem_generate_shape {centers r : List Loc}
    (hr : r ∈ generate_all_routes centers) :
    ∃ perm j, perm.Perm centers ∧ j < perm.length ∧ r = insertDrop perm j := by
  unfold generate_all_routes at hr
  obtain ⟨perm, hperm, hr2⟩ := List.mem_flatMap.mp hr
  obtain ⟨j, hj, rfl⟩ := List.mem_map.mp hr2
  exact ⟨perm, j, List.mem_permutations'.mp hperm, List.mem_range.mp hj, rfl⟩

lemma head_of_mem_generate {centers r : List Loc}
    (hr : r ∈ generate_all_routes centers) :
    ∃ c, c ∈ centers ∧ r.head? = some c := by
  obtain ⟨perm, j, hperm, hj, rfl⟩ := mem_generate_shape hr
  cases perm with
  | nil => simp at hj
  | cons a tail =>
    refine ⟨a, hperm.mem_iff.mp (List.mem_cons_self a tail), ?_⟩
    unfold insertDrop
    simp only [List.take_succ_cons, List.cons_append]
    split <;> rfl

lemma gen_ne_nil {centers : List Loc} (hne : centers ≠ []) :
    generate_all_routes centers ≠ [] := by
  apply List.ne_nil_of_mem (a := insertDrop centers 0)
  unfold generate_all_routes
  refine List.mem_flatMap.mpr ⟨centers, List.mem_permutations'.mpr (List.Perm.refl _), ?_⟩
  exact List.mem_map.mpr ⟨0, List.mem_range.mpr (List.length_pos.mpr hne), rfl⟩

/-- Claim C5 counterexample: for the empty set of involved warehouses the
enumerator returns the empty collection, not a non-empty one. -/
theorem claim_C5_counterexample : generate_all_routes [] = [] := rfl

/-- Claim C5 amended: for every non-empty set of involved warehouses the
enumerator returns a non-empty collection of routes that contains, for
every permutation of the warehouses and every split point k from 1 to the
warehouse count, the route visiting the first k warehouses in permutation
order, then L1, then the remaining warehouses, ending with L1; a single
involved warehouse yields exactly one trivial route. -/
theorem claim_C5 :
    (∀ centers : List Loc, centers ≠ [] → Loc.L1 ∉ centers →
      generate_all_routes centers ≠ [] ∧
      ∀ perm : List Loc, perm.Perm centers → ∀ k : ℕ, 1 ≤ k → k ≤ centers.length →
        (if k = centers.length then perm ++ [Loc.L1]
          else perm.take k ++ [Loc.L1] ++ perm.drop k ++ [Loc.L1]) ∈
          generate_all_routes centers) ∧
    (∀ w : Loc, generate_all_routes [w] = [[w, Loc.L1]]) := by
  refine ⟨fun centers hne hL1 => ⟨gen_ne_nil hne, ?_⟩, gen_singleton⟩
  intro perm hperm k hk1 hk2
  have hlen : perm.length = centers.length := hperm.length_eq
  cases k with
  | zero => omega
  | succ j =>
    have hj : j < perm.length := by omega
    unfold generate_all_routes
    refine List.mem_flatMap.mpr ⟨perm, List.mem_permutations'.mpr hperm, ?_⟩
    refine List.mem_map.mpr ⟨j, List.mem_range.mpr hj, ?_⟩
    simp only [insertDrop]
    by_cases hlast : j + 1 = centers.length
    · have hlp : j + 1 = perm.length := by omega
      rw [if_pos hlast, hlp, List.take_length, List.drop_length,
        List.append_nil, List.getLast?_concat]
      simp
    · have hdrop : perm.drop (j + 1) ≠ [] := by
        intro hcon
        have := List.drop_eq_nil_iff.mp hcon
        omega
      rw [if_neg hlast,
        List.getLast?_append_of_ne_nil (perm.take (j + 1) ++ [Loc.L1]) hdrop]
      obtain ⟨x, hx⟩ := Option.isSome_iff_exists.mp
        (List.getLast?_isSome.mpr hdrop)
      have hxmem : x ∈ perm := List.drop_subset _ _
        (List.mem_of_mem_getLast? (by rw [hx]; rfl))
      have hxne : x ≠ Loc.L1 := fun hcon => hL1 (hperm.mem_iff.mp (hcon ▸ hxmem))
      rw [hx, if_neg (by simpa using hxne)]

/-- Witness for claim C5 at the concrete warehouse set containing C1 and
C3, the permutation listing C3 first and split point 1. -/
theorem claim_C5_witness :
    ([Loc.C1, Loc.C3] : List Loc) ≠ [] ∧ Loc.L1 ∉ ([Loc.C1, Loc.C3] : List Loc) ∧
    ([Loc.C3, Loc.C1] : List Loc).Perm [Loc.C1, Loc.C3] ∧
    (if 1 = ([Loc.C1, Loc.C3] : List Loc).length then [Loc.C3, Loc.C1] ++ [Loc.L1]
      else ([Loc.C3, Loc.C1] : List Loc).take 1 ++ [Loc.L1] ++
        ([Loc.C3, Loc.C1] : List Loc).drop 1 ++ [Loc.L1]) ∈
      generate_all_routes [Loc.C1, Loc.C3] :=
  ⟨by decide, by decide, by decide,
    (claim_C5.1 [Loc.C1, Loc.C3] (by decide) (by decide)).2 [Loc.C3, Loc.C1]
      (by decide) 1 (by decide) (by decide)⟩

/-
Single involved warehouse.
-/

lemma routesMinCost_singleton_route (Wh : Loc) (W : Loc → ℚ)
    (hW : Wh ≠ Loc.L1) :
    routesMinCost [[Wh, Loc.L1]] W =
      some (calculate_segment_cost (W Wh) (get_distance Wh Loc.L1)) := by
  have hWc : Wh ∈ CENTERS := mem_CENTERS_of_ne Wh hW
  simp only [routesMinCost, List.foldl_cons, List.foldl_nil, minOpt_none_left,
    calculate_cost_for_route, if_neg hW, if_pos hWc, routeLoop, zero_add]
  simp

/-- Claim C7: when the aggregated demand involves exactly one warehouse,
the returned cost is the rounded cost of the single segment from that
warehouse to L1 under the aggregate weight; in particular one unit of
product B, the lightest product stocked at C1, costs the rounding of
10 times the C1-to-L1 distance 3. -/
theorem claim_C7 :
    (∀ (order : OrderData) (Wh : Loc),
      (aggregate order).involved = [Wh] →
      _calculate_overall_minimum_cost order =
        (some (pythonRound (calculate_segment_cost ((aggregate order).wfc Wh)
          (get_distance Wh Loc.L1))), none)) ∧
    _calculate_overall_minimum_cost [("B", 1)] =
      (some (pythonRound ((10 : ℚ) * 3)), none) := by
  have hmain : ∀ (order : OrderData) (Wh : Loc),
      (aggregate order).involved = [Wh] →
      _calculate_overall_minimum_cost order =
        (some (pythonRound (calculate_segment_cost ((aggregate order).wfc Wh)
          (get_distance Wh Loc.L1))), none) := by
    intro order Wh h
    have hW : Wh ≠ Loc.L1 := by
      intro hcon
      exact L1_not_involved (aggregate order) (h ▸ hcon ▸ List.mem_cons_self _ _)
    simp only [_calculate_overall_minimum_cost, h, gen_singleton,
      routesMinCost_singleton_route Wh (aggregate order).wfc hW]
    simp
  refine ⟨hmain, ?_⟩
  have hinv : (aggregate [("B", 1)]).involved = [Loc.C1] := rfl
  rw [hmain [("B", 1)] Loc.C1 hinv]
  have hfind : findProduct "B" = some (Loc.C1, 2) := by decide
  have hwfc : (aggregate [("B", 1)]).wfc Loc.C1 = 2 := by
    norm_num [aggregate, aggStep, hfind, addWeight, initDemand, Demand.wfc]
  have hdist : get_distance Loc.C1 Loc.L1 = some 3 := rfl
  rw [hwfc, hdist, calculate_segment_cost_some]
  norm_num [cost_per_km, EPSILON]

/-- Witness for claim C7 at a concrete single-warehouse order. -/
theorem claim_C7_witness :
    (aggregate [("G", 2)]).involved = [Loc.C3] ∧
    _calculate_overall_minimum_cost [("G", 2)] =
      (some (pythonRound (calculate_segment_cost ((aggregate [("G", 2)]).wfc Loc.C3)
        (get_distance Loc.C3 Loc.L1))), none) :=
  ⟨rfl, claim_C7.1 [("G", 2)] Loc.C3 rfl⟩

/-
Nonnegativity of segment and route costs.
-/

lemma routeLoop_nil (W : Loc → ℚ) (lf : Loc) (carried : ℚ) (picked : List Loc)
    (acc : ℚ) : routeLoop W [] lf carried picked acc = acc := rfl

lemma routeLoop_cons (W : Loc → ℚ) (b : Loc) (t : List Loc) (lf : Loc)
    (carried : ℚ) (picked : List Loc) (acc : ℚ) :
    routeLoop W (b :: t) lf carried picked acc =
      if b = Loc.L1 then
        routeLoop W t b 0 picked
          (acc + calculate_segment_cost carried (get_distance lf b))
      else if b ∈ CENTERS ∧ b ∉ picked then
        routeLoop W t b (carried + W b) (b :: picked)
          (acc + calculate_segment_cost carried (get_distance lf b))
      else
        routeLoop W t b carried picked
          (acc + calculate_segment_cost carried (get_distance lf b)) := rfl

lemma cost_per_km_ge_ten (w : ℚ) : 10 ≤ cost_per_km w := by
  unfold cost_per_km
  split_ifs with h1 h2
  · norm_num
  · norm_num
  · have hgt : 5 + EPSILON < w := not_le.mp h2
    have heps : (0 : ℚ) < EPSILON := by norm_num [EPSILON]
    have hpos : (0 : ℚ) < (w - 5) / 5 := div_pos (by linarith) (by norm_num)
    have hc : 0 < ⌈(w - 5) / 5⌉ := Int.ceil_pos.mpr hpos
    have hcq : (1 : ℚ) ≤ (⌈(w - 5) / 5⌉ : ℤ) := by exact_mod_cast hc
    linarith

lemma segment_nonneg (w : ℚ) (dOpt : Option ℚ) :
    0 ≤ calculate_segment_cost w dOpt := by
  cases dOpt with
  | none => rw [calculate_segment_cost_none]
  | some d =>
    rw [calculate_segment_cost_some]
    split_ifs with h
    · exact le_refl 0
    · have hd : 0 < d := not_le.mp h
      have := cost_per_km_ge_ten w
      nlinarith

lemma routeLoop_ge_acc (W : Loc → ℚ) (rest : List Loc) :
    ∀ (lf : Loc) (carried : ℚ) (picked : List Loc) (acc : ℚ),
      acc ≤ routeLoop W rest lf carried picked acc := by
  induction rest with
  | nil => intro lf carried picked acc; rw [routeLoop_nil]
  | cons b t ih =>
    intro lf carried picked acc
    rw [routeLoop_cons]
    have hseg := segment_nonneg carried (get_distance lf b)
    have hacc : acc ≤ acc + calculate_segment_cost carried (get_distance lf b) := by
      linarith
    split_ifs with h1 h2
    · exact le_trans hacc (ih _ _ _ _)
    · exact le_trans hacc (ih _ _ _ _)
    · exact le_trans hacc (ih _ _ _ _)

lemma cost_for_route_eq_some {a : Loc} (rest : List Loc) (W : Loc → ℚ)
    (ha : a ≠ Loc.L1) :
    ∃ x, calculate_cost_for_route (a :: rest) W = some x ∧ 0 ≤ x := by
  simp only [calculate_cost_for_route]
  rw [if_neg ha]
  by_cases hc : a ∈ CENTERS
  · exact ⟨_, by rw [if_pos hc], routeLoop_ge_acc W rest a (W a) [a] 0⟩
  · exact ⟨_, by rw [if_neg hc], routeLoop_ge_acc W rest a 0 [] 0⟩

lemma cost_some_nonneg {route : List Loc} {W : Loc → ℚ} {x : ℚ}
    (h : calculate_cost_for_route route W = some x) : 0 ≤ x := by
  cases route with
  | nil => exact absurd h (by simp [calculate_cost_for_route])
  | cons a rest =>
    simp only [calculate_cost_for_route] at h
    split_ifs at h with h1 h2
    · cases h; exact routeLoop_ge_acc W rest a (W a) [a] 0
    · cases h; exact routeLoop_ge_acc W rest a 0 [] 0

/-
Minimum fold lemmas.
-/

lemma routesMinCost_eq_foldl_map (routes : List (List Loc)) (W : Loc → ℚ) :
    routesMinCost routes W =
      (routes.map (fun r => calculate_cost_for_route r W)).foldl minOpt none :=
  (List.foldl_map _ _ _ _).symm

lemma minOpt_some_isSome (x : ℚ) (b : Option ℚ) : (minOpt (some x) b).isSome := by
  cases b <;> simp [minOpt]

lemma foldMin_isSome (l : List (Option ℚ)) :
    ∀ acc : Option ℚ, acc.isSome → (l.foldl minOpt acc).isSome := by
  induction l with
  | nil => intro acc h; exact h
  | cons c t ih =>
    intro acc h
    rw [List.foldl_cons]
    cases acc with
    | none => exact absurd h (by simp)
    | some x => exact ih _ (minOpt_some_isSome x c)

lemma foldMin_spec (l : List (Option ℚ)) :
    ∀ (acc : Option ℚ) (q : ℚ), l.foldl minOpt acc = some q →
      (acc = some q ∨ some q ∈ l) ∧
      (∀ x, acc = some x → q ≤ x) ∧
      (∀ x, some x ∈ l → q ≤ x) := by
  induction l with
  | nil =>
    intro acc q h
    simp only [List.foldl_nil] at h
    refine ⟨Or.inl h, fun x hx => ?_, fun x hx => absurd hx (by simp)⟩
    rw [h] at hx
    exact le_of_eq (Option.some_injective _ hx)
  | cons c t ih =>
    intro acc q h
    rw [List.foldl_cons] at h
    obtain ⟨hat, hacc, hmem⟩ := ih (minOpt acc c) q h
    refine ⟨?_, fun x hx => ?_, fun x hx => ?_⟩
    · rcases hat with hat | hat
      · cases acc with
        | none => exact Or.inr (by rw [← hat]; exact List.mem_cons_self _ _)
        | some a =>
          cases c with
          | none => exact Or.inl hat
          | some b =>
            simp only [minOpt, Option.some.injEq] at hat
            rcases min_choice a b with hmin | hmin
            · exact Or.inl (by rw [← hat, hmin])
            · exact Or.inr (by rw [← hat, hmin]; exact List.mem_cons_self _ _)
      · exact Or.inr (List.mem_cons_of_mem _ hat)
    · subst hx
      cases c with
      | none => exact hacc x rfl
      | some b =>
        have := hacc (min x b) rfl
        exact le_trans this (min_le_left x b)
    · rcases List.mem_cons.mp hx with hx | hx
      · cases acc with
        | none => exact hacc x (by rw [minOpt_none_left, ← hx])
        | some a =>
          rw [← hx] at hacc
          have := hacc (min a x) rfl
          exact le_trans this (min_le_right a x)
      · exact hmem x hx

/-
Involvement flags of the aggregated demand.
-/

/-- The involvement flag of a center in a demand. -/
def flagOf (d : Demand) : Loc → Bool
  | Loc.C1 => d.iC1
  | Loc.C2 => d.iC2
  | Loc.C3 => d.iC3
  | Loc.L1 => false

lemma findProduct_sound {p : String} {c : Loc} {w : ℚ}
    (h : findProduct p = some (c, w)) : c ≠ Loc.L1 ∧ 0 < w := by
  unfold findProduct at h
  obtain ⟨e, he, he2⟩ := Option.map_eq_some'.mp h
  have hmem := List.mem_of_find?_eq_some he
  simp only [PRODUCTS, List.mem_cons, List.not_mem_nil, or_false] at hmem
  rcases hmem with rfl | rfl | rfl | rfl | rfl | rfl | rfl | rfl | rfl <;>
    (obtain ⟨h1, h2⟩ := Prod.mk.inj he2
     subst h1
     subst h2
     exact ⟨fun hcon => Loc.noConfusion hcon, by norm_num⟩)

lemma flagOf_addWeight_self (d : Demand) (c : Loc) (w : ℚ) (hc : c ≠ Loc.L1) :
    flagOf (addWeight d c w) c = true := by
  cases c <;> simp_all [addWeight, flagOf]

lemma flagOf_addWeight_mono (d : Demand) (c c' : Loc) (w : ℚ)
    (h : flagOf d c = true) : flagOf (addWeight d c' w) c = true := by
  cases c <;> cases c' <;> simp_all [addWeight, flagOf]

lemma flagOf_aggStep_mono (d : Demand) (e : String × ℤ) (c : Loc)
    (h : flagOf d c = true) : flagOf (aggStep d e) c = true := by
  unfold aggStep
  rcases hf : findProduct e.1 with _ | ⟨c', w⟩
  · exact h
  · split_ifs with hq
    · exact h
    · exact flagOf_addWeight_mono d c c' _ h

lemma flagOf_fold_mono (l : OrderData) :
    ∀ (d : Demand) (c : Loc), flagOf d c = true →
      flagOf (l.foldl aggStep d) c = true := by
  induction l with
  | nil => intro d c h; exact h
  | cons e t ih =>
    intro d c h
    rw [List.foldl_cons]
    exact ih _ _ (flagOf_aggStep_mono d e c h)

lemma flag_set_of_entry (l : OrderData) (p : String) (q : ℤ) (c : Loc) (w : ℚ)
    (hmem : (p, q) ∈ l) (hq : 0 < q) (hf : findProduct p = some (c, w)) :
    ∀ d : Demand, flagOf (l.foldl aggStep d) c = true := by
  induction l with
  | nil => exact absurd hmem (by simp)
  | cons e t ih =>
    intro d
    rw [List.foldl_cons]
    rcases List.mem_cons.mp hmem with he | he
    · apply flagOf_fold_mono
      rw [← he]
      unfold aggStep
      rw [hf]
      simp only [if_neg (by omega : ¬q ≤ 0)]
      exact flagOf_addWeight_self d c _ (findProduct_sound hf).1
    · exact ih he _

lemma involved_ne_nil_of_flag {d : Demand} {c : Loc}
    (hc : flagOf d c = true) : d.involved ≠ [] := by
  cases c <;> simp_all [Demand.involved, flagOf]

/-
Overall minimum cost never reports the infeasibility error.
-/

lemma routesMinCost_isSome {centers : List Loc} (W : Loc → ℚ)
    (hne : centers ≠ []) (hL1 : Loc.L1 ∉ centers) :
    ∃ q : ℚ, routesMinCost (generate_all_routes centers) W = some q := by
  rcases hgen : generate_all_routes centers with _ | ⟨r, rs⟩
  · exact absurd hgen (gen_ne_nil hne)
  · have hr : r ∈ generate_all_routes centers := by rw [hgen]; exact List.mem_cons_self _ _
    obtain ⟨c, hc, hhead⟩ := head_of_mem_generate hr
    have hcL1 : c ≠ Loc.L1 := fun hcon => hL1 (hcon ▸ hc)
    cases r with
    | nil => simp at hhead
    | cons a tail =>
      obtain rfl : a = c := by simpa using hhead
      obtain ⟨x, hx, -⟩ := cost_for_route_eq_some tail W hcL1
      have : routesMinCost ((a :: tail) :: rs) W =
          (List.map (fun r => calculate_cost_for_route r W) rs).foldl minOpt
            (some x) := by
        rw [routesMinCost_eq_foldl_map, List.map_cons, List.foldl_cons,
          minOpt_none_left, hx]
      obtain ⟨q, hq⟩ := Option.isSome_iff_exists.mp
        (foldMin_isSome (List.map (fun r => calculate_cost_for_route r W) rs)
          (some x) (by simp))
      refine ⟨q, ?_⟩
      rw [this]
      exact hq

lemma calc_never_errors (order : OrderData) :
    ∃ m : ℤ, _calculate_overall_minimum_cost order = (some m, none) := by
  by_cases hinv : (aggregate order).involved = []
  · exact ⟨0, by simp [_calculate_overall_minimum_cost, hinv]⟩
  · obtain ⟨q, hq⟩ := routesMinCost_isSome (aggregate order).wfc hinv
      (L1_not_involved (aggregate order))
    refine ⟨pythonRound q, ?_⟩
    simp only [_calculate_overall_minimum_cost, if_neg hinv, hq]

lemma pythonRound_nonneg {q : ℚ} (h : 0 ≤ q) : 0 ≤ pythonRound q := by
  simp only [pythonRound]
  have hf : 0 ≤ ⌊q⌋ := Int.floor_nonneg.mpr h
  split_ifs <;> omega

/-- Claim C9: the core never returns the no-valid-route error: the error
component is always none with a numeric cost present, every generated
candidate route starts at a warehouse rather than L1, and unreachable
segments are priced at cost 0. -/
theorem claim_C9 :
    (∀ order : OrderData, ∃ m : ℤ,
      _calculate_overall_minimum_cost order = (some m, none)) ∧
    (∀ centers r : List Loc, Loc.L1 ∉ centers →
      r ∈ generate_all_routes centers → r.head? ≠ some Loc.L1) ∧
    (∀ w : ℚ, calculate_segment_cost w none = 0) := by
  refine ⟨calc_never_errors, ?_, calculate_segment_cost_none⟩
  intro centers r hL1 hr
  obtain ⟨c, hc, hhead⟩ := head_of_mem_generate hr
  rw [hhead]
  intro hcon
  exact hL1 ((Option.some_injective _ hcon) ▸ hc)

/-- Witness for claim C9 at a concrete order with an unknown code and a
concrete generated route. -/
theorem claim_C9_witness :
    (∃ m : ℤ, _calculate_overall_minimum_cost [("Z", 3)] = (some m, none)) ∧
    (Loc.L1 ∉ ([Loc.C2] : List Loc) ∧
      ([Loc.C2, Loc.L1] : List Loc) ∈ generate_all_routes [Loc.C2] ∧
      ([Loc.C2, Loc.L1] : List Loc).head? ≠ some Loc.L1) ∧
    calculate_segment_cost 4 none = 0 :=
  ⟨claim_C9.1 [("Z", 3)],
    ⟨by decide, by decide,
      claim_C9.2.1 [Loc.C2] [Loc.C2, Loc.L1] (by decide) (by decide)⟩,
    claim_C9.2.2 4⟩

/-- Claim C2: for every non-empty validated order the core returns the
minimum, over all enumerated candidate routes, of the evaluated route
cost, rounded, as a non-negative integer with no error; the returned
rational minimum is attained by some candidate route and bounds every
candidate route cost from below. -/
theorem claim_C2 (order : OrderData) (hne : order ≠ [])
    (hvalid : ∀ e ∈ order, 0 < e.2 ∧ (findProduct e.1).isSome) :
    ∃ q : ℚ, 0 ≤ q ∧
      routesMinCost (generate_all_routes (aggregate order).involved)
        (aggregate order).wfc = some q ∧
      (∃ r ∈ generate_all_routes (aggregate order).involved,
        calculate_cost_for_route r (aggregate order).wfc = some q) ∧
      (∀ r ∈ generate_all_routes (aggregate order).involved,
        ∀ x : ℚ, calculate_cost_for_route r (aggregate order).wfc = some x →
          q ≤ x) ∧
      _calculate_overall_minimum_cost order = (some (pythonRound q), none) ∧
      0 ≤ pythonRound q := by
  have hinv : (aggregate order).involved ≠ [] := by
    cases order with
    | nil => exact absurd rfl hne
    | cons e rest =>
      obtain ⟨hq, hsome⟩ := hvalid e (List.mem_cons_self e rest)
      obtain ⟨⟨c, w⟩, hf⟩ := Option.isSome_iff_exists.mp hsome
      apply involved_ne_nil_of_flag (c := c)
      unfold aggregate
      exact flag_set_of_entry (e :: rest) e.1 e.2 c w
        (by rw [Prod.mk.eta]; exact List.mem_cons_self e rest) hq hf initDemand
  obtain ⟨q, hq⟩ := routesMinCost_isSome (aggregate order).wfc hinv
    (L1_not_involved (aggregate order))
  have hq' := hq
  rw [routesMinCost_eq_foldl_map] at hq'
  obtain ⟨hat, -, hmemb⟩ := foldMin_spec _ none q hq'
  rcases hat with hat | hat
  · exact absurd hat (by simp)
  · obtain ⟨r, hrmem, hrq⟩ := List.mem_map.mp hat
    have hq0 : 0 ≤ q := cost_some_nonneg hrq
    refine ⟨q, hq0, hq, ⟨r, hrmem, hrq⟩, ?_, ?_, pythonRound_nonneg hq0⟩
    · intro r2 hr2 x hx
      exact hmemb x (List.mem_map.mpr ⟨r2, hr2, hx⟩)
    · simp only [_calculate_overall_minimum_cost, if_neg hinv, hq]

/-- Witness for claim C2 at the concrete order of one unit of product A. -/
theorem claim_C2_witness :
    (([("A", 1)] : OrderData) ≠ []) ∧
    (∀ e ∈ ([("A", 1)] : OrderData), 0 < e.2 ∧ (findProduct e.1).isSome) ∧
    (∃ q : ℚ, 0 ≤ q ∧
      routesMinCost (generate_all_routes (aggregate [("A", 1)]).involved)
        (aggregate [("A", 1)]).wfc = some q ∧
      (∃ r ∈ generate_all_routes (aggregate [("A", 1)]).involved,
        calculate_cost_for_route r (aggregate [("A", 1)]).wfc = some q) ∧
      (∀ r ∈ generate_all_routes (aggregate [("A", 1)]).involved,
        ∀ x : ℚ,
          calculate_cost_for_route r (aggregate [("A", 1)]).wfc = some x →
          q ≤ x) ∧
      _calculate_overall_minimum_cost [("A", 1)] =
        (some (pythonRound q), none) ∧
      0 ≤ pythonRound q) :=
  ⟨by decide, by decide, claim_C2 [("A", 1)] (by decide) (by decide)⟩

/-
Monotonicity of the pricing in the carried weight.
-/

lemma cost_per_km_eq_ten_of_le {w : ℚ} (h : w ≤ 5 + EPSILON) :
    cost_per_km w = 10 := by
  unfold cost_per_km
  split_ifs <;> rfl

lemma cost_per_km_of_gt {w : ℚ} (h : 5 + EPSILON < w) :
    cost_per_km w = 10 + 8 * (⌈(w - 5) / 5⌉ : ℤ) := by
  have heps : (0 : ℚ) < EPSILON := by norm_num [EPSILON]
  unfold cost_per_km
  split_ifs with h1 h2 <;> first | rfl | linarith

lemma cost_per_km_mono {w w' : ℚ} (h : w ≤ w') :
    cost_per_km w ≤ cost_per_km w' := by
  rcases le_or_lt w' (5 + EPSILON) with h2 | h2
  · rw [cost_per_km_eq_ten_of_le (le_trans h h2), cost_per_km_eq_ten_of_le h2]
  · rcases le_or_lt w (5 + EPSILON) with h3 | h3
    · rw [cost_per_km_eq_ten_of_le h3]
      have h10 := cost_per_km_ge_ten w'
      exact le_trans (by norm_num) h10
    · rw [cost_per_km_of_gt h2, cost_per_km_of_gt h3]
      have hc : ⌈(w - 5) / 5⌉ ≤ ⌈(w' - 5) / 5⌉ :=
        Int.ceil_le_ceil (by linarith)
      have hcq : ((⌈(w - 5) / 5⌉ : ℤ) : ℚ) ≤ ((⌈(w' - 5) / 5⌉ : ℤ) : ℚ) := by
        exact_mod_cast hc
      linarith

lemma segment_mono {w w' : ℚ} (h : w ≤ w') (dOpt : Option ℚ) :
    calculate_segment_cost w dOpt ≤ calculate_segment_cost w' dOpt := by
  cases dOpt with
  | none => simp [calculate_segment_cost_none]
  | some d =>
    rw [calculate_segment_cost_some, calculate_segment_cost_some]
    split_ifs with hd
    · exact le_refl 0
    · exact mul_le_mul_of_nonneg_right (cost_per_km_mono h)
        (le_of_lt (not_le.mp hd))

lemma routeLoop_mono {W W' : Loc → ℚ} (hW : ∀ c, W c ≤ W' c)
    (rest : List Loc) :
    ∀ (lf : Loc) (carried carried' : ℚ) (picked : List Loc) (acc acc' : ℚ),
      carried ≤ carried' → acc ≤ acc' →
      routeLoop W rest lf carried picked acc ≤
        routeLoop W' rest lf carried' picked acc' := by
  induction rest with
  | nil =>
    intro lf carried carried' picked acc acc' hc hacc
    rw [routeLoop_nil, routeLoop_nil]
    exact hacc
  | cons b t ih =>
    intro lf carried carried' picked acc acc' hc hacc
    rw [routeLoop_cons, routeLoop_cons]
    have hseg := segment_mono hc (get_distance lf b)
    have hacc2 : acc + calculate_segment_cost carried (get_distance lf b) ≤
        acc' + calculate_segment_cost carried' (get_distance lf b) :=
      add_le_add hacc hseg
    split_ifs with h1 h2
    · exact ih b 0 0 picked _ _ le_rfl hacc2
    · exact ih b (carried + W b) (carried' + W' b) (b :: picked) _ _
        (add_le_add hc (hW b)) hacc2
    · exact ih b carried carried' picked _ _ hc hacc2

lemma cost_mono {W W' : Loc → ℚ} (hW : ∀ c, W c ≤ W' c) (route : List Loc) :
    ∀ x', calculate_cost_for_route route W' = some x' →
      ∃ x, calculate_cost_for_route route W = some x ∧ x ≤ x' := by
  cases route with
  | nil => intro x' h; exact absurd h (by simp [calculate_cost_for_route])
  | cons a rest =>
    intro x' h
    simp only [calculate_cost_for_route] at h ⊢
    split_ifs at h ⊢ with h1 h2
    · cases h
      exact ⟨_, rfl, routeLoop_mono hW rest a (W a) (W' a) [a] 0 0 (hW a) le_rfl⟩
    · cases h
      exact ⟨_, rfl, routeLoop_mono hW rest a 0 0 [] 0 0 le_rfl le_rfl⟩

/-- Pointwise domination order on optional costs: every finite cost on the
right is matched by a smaller or equal finite cost on the left. -/
def OLE (a b : Option ℚ) : Prop :=
  ∀ y, b = some y → ∃ x, a = some x ∧ x ≤ y

lemma OLE_minOpt {a a' b b' : Option ℚ} (ha : OLE a a') (hb : OLE b b') :
    OLE (minOpt a b) (minOpt a' b') := by
  intro y hy
  cases a' with
  | none =>
    rw [minOpt_none_left] at hy
    obtain ⟨x, hx, hxy⟩ := hb y hy
    cases a with
    | none => exact ⟨x, by rw [minOpt_none_left, hx], hxy⟩
    | some z =>
      rw [hx]
      exact ⟨min z x, rfl, le_trans (min_le_right z x) hxy⟩
  | some ya =>
    obtain ⟨xa, hxa, hxya⟩ := ha ya rfl
    cases b' with
    | none =>
      simp only [minOpt, Option.some.injEq] at hy
      subst hy
      cases b with
      | none => exact ⟨xa, by rw [hxa]; rfl, hxya⟩
      | some xb =>
        rw [hxa]
        exact ⟨min xa xb, rfl, le_trans (min_le_left xa xb) hxya⟩
    | some yb =>
      obtain ⟨xb, hxb, hxyb⟩ := hb yb rfl
      simp only [minOpt, Option.some.injEq] at hy
      subst hy
      rw [hxa, hxb]
      exact ⟨min xa xb, rfl, min_le_min hxya hxyb⟩

lemma foldMin_OLE {costs costs' : List (Option ℚ)}
    (hf : List.Forall₂ OLE costs costs') :
    ∀ acc acc', OLE acc acc' →
      OLE (costs.foldl minOpt acc) (costs'.foldl minOpt acc') := by
  induction hf with
  | nil => intro acc acc' h; exact h
  | cons hab htail ih =>
    intro acc acc' h
    rw [List.foldl_cons, List.foldl_cons]
    exact ih _ _ (OLE_minOpt h hab)

lemma forall₂_map_cost {W W' : Loc → ℚ} (hW : ∀ c, W c ≤ W' c)
    (routes : List (List Loc)) :
    List.Forall₂ OLE (routes.map (fun r => calculate_cost_for_route r W))
      (routes.map (fun r => calculate_cost_for_route r W')) := by
  induction routes with
  | nil => exact List.Forall₂.nil
  | cons r t ih => exact List.Forall₂.cons (cost_mono hW r) ih

/-
Demand comparison: equal involvement flags, pointwise dominated weights.
-/

/-- Pointwise order on aggregated demands with identical involvement
flags. -/
def DLE (d d' : Demand) : Prop :=
  d.wC1 ≤ d'.wC1 ∧ d.wC2 ≤ d'.wC2 ∧ d.wC3 ≤ d'.wC3 ∧
    d.iC1 = d'.iC1 ∧ d.iC2 = d'.iC2 ∧ d.iC3 = d'.iC3

lemma DLE_refl (d : Demand) : DLE d d :=
  ⟨le_refl _, le_refl _, le_refl _, rfl, rfl, rfl⟩

lemma DLE_wfc {d d' : Demand} (h : DLE d d') : ∀ c, d.wfc c ≤ d'.wfc c := by
  intro c
  obtain ⟨h1, h2, h3, -, -, -⟩ := h
  cases c <;> simp [Demand.wfc, h1, h2, h3]

lemma DLE_involved {d d' : Demand} (h : DLE d d') :
    d.involved = d'.involved := by
  obtain ⟨-, -, -, h4, h5, h6⟩ := h
  unfold Demand.involved
  rw [h4, h5, h6]

lemma DLE_addWeight {d d' : Demand} (h : DLE d d') (c : Loc) {w w' : ℚ}
    (hw : w ≤ w') : DLE (addWeight d c w) (addWeight d' c w') := by
  obtain ⟨h1, h2, h3, h4, h5, h6⟩ := h
  cases c
  · exact ⟨add_le_add h1 hw, h2, h3, rfl, h5, h6⟩
  · exact ⟨h1, add_le_add h2 hw, h3, h4, rfl, h6⟩
  · exact ⟨h1, h2, add_le_add h3 hw, h4, h5, rfl⟩
  · exact ⟨h1, h2, h3, h4, h5, h6⟩

lemma DLE_aggStep {d d' : Demand} (h : DLE d d') (e : String × ℤ) :
    DLE (aggStep d e) (aggStep d' e) := by
  unfold aggStep
  rcases hf : findProduct e.1 with _ | ⟨c, w⟩
  · exact h
  · split_ifs with hq
    · exact h
    · exact DLE_addWeight h c (le_refl _)

lemma DLE_fold (l : OrderData) :
    ∀ {d d' : Demand}, DLE d d' →
      DLE (l.foldl aggStep d) (l.foldl aggStep d') := by
  induction l with
  | nil => intro d d' h; exact h
  | cons e t ih =>
    intro d d' h
    rw [List.foldl_cons, List.foldl_cons]
    exact ih (DLE_aggStep h e)

lemma aggregate_mono (pre post : OrderData) (p : String) (q q' : ℤ)
    (hq : 0 < q) (hqq : q ≤ q') :
    DLE (aggregate (pre ++ (p, q) :: post))
      (aggregate (pre ++ (p, q') :: post)) := by
  unfold aggregate
  rw [List.foldl_append, List.foldl_append, List.foldl_cons, List.foldl_cons]
  apply DLE_fold
  simp only [aggStep]
  rcases hf : findProduct p with _ | ⟨c, w⟩
  · exact DLE_refl _
  · dsimp only
    rw [if_neg (by omega : ¬q ≤ 0), if_neg (by omega : ¬q' ≤ 0)]
    apply DLE_addWeight (DLE_refl _) c
    have hw := (findProduct_sound hf).2
    have hcast : (q : ℚ) ≤ (q' : ℚ) := by exact_mod_cast hqq
    exact mul_le_mul_of_nonneg_left hcast (le_of_lt hw)

/-
Monotonicity of the banker rounding.
-/

lemma pythonRound_le_floor_add_one (q : ℚ) : pythonRound q ≤ ⌊q⌋ + 1 := by
  simp only [pythonRound]
  split_ifs <;> omega

lemma floor_le_pythonRound (q : ℚ) : ⌊q⌋ ≤ pythonRound q := by
  simp only [pythonRound]
  split_ifs <;> omega

lemma pythonRound_mono {q q' : ℚ} (h : q ≤ q') :
    pythonRound q ≤ pythonRound q' := by
  have hff : ⌊q⌋ ≤ ⌊q'⌋ := Int.floor_le_floor h
  rcases eq_or_lt_of_le hff with heq | hlt
  · simp only [pythonRound]
    rw [← heq]
    have hr : q - (⌊q⌋ : ℚ) ≤ q' - (⌊q⌋ : ℚ) := by linarith
    split_ifs <;>
      first
      | omega
      | linarith
      | (exfalso
         exact absurd (by linarith : q - (⌊q⌋ : ℚ) = 1 / 2) (by assumption))
  · calc pythonRound q ≤ ⌊q⌋ + 1 := pythonRound_le_floor_add_one q
      _ ≤ ⌊q'⌋ := by omega
      _ ≤ pythonRound q' := floor_le_pythonRound q'

/-- Claim C6: for a validated order, increasing the quantity of one of its
entries (a catalog product with positive quantity) never decreases the
cost returned by the core. -/
theorem claim_C6 (pre post : OrderData) (p : String) (q q' : ℤ)
    (hq : 0 < q) (hqq : q ≤ q') (_hp : (findProduct p).isSome) :
    ∃ m m' : ℤ,
      _calculate_overall_minimum_cost (pre ++ (p, q) :: post) =
        (some m, none) ∧
      _calculate_overall_minimum_cost (pre ++ (p, q') :: post) =
        (some m', none) ∧
      m ≤ m' := by
  have hD : DLE (aggregate (pre ++ (p, q) :: post))
      (aggregate (pre ++ (p, q') :: post)) :=
    aggregate_mono pre post p q q' hq hqq
  have hinvol : (aggregate (pre ++ (p, q) :: post)).involved =
      (aggregate (pre ++ (p, q') :: post)).involved := DLE_involved hD
  by_cases hinv : (aggregate (pre ++ (p, q) :: post)).involved = []
  · have hinv2 : (aggregate (pre ++ (p, q') :: post)).involved = [] := by
      rw [← hinvol]; exact hinv
    exact ⟨0, 0, by simp [_calculate_overall_minimum_cost, hinv],
      by simp [_calculate_overall_minimum_cost, hinv2], le_refl 0⟩
  · have hinv2 : (aggregate (pre ++ (p, q') :: post)).involved ≠ [] := by
      rw [← hinvol]; exact hinv
    obtain ⟨q2, hq2⟩ := routesMinCost_isSome
      (aggregate (pre ++ (p, q') :: post)).wfc hinv2 (L1_not_involved _)
    have hq2m := hq2
    rw [routesMinCost_eq_foldl_map] at hq2m
    have hOLE := foldMin_OLE
      (forall₂_map_cost (DLE_wfc hD)
        (generate_all_routes (aggregate (pre ++ (p, q') :: post)).involved))
      none none (fun y hy => absurd hy (by simp))
    obtain ⟨q1, hq1, hle⟩ := hOLE q2 hq2m
    have hq1m : routesMinCost
        (generate_all_routes (aggregate (pre ++ (p, q) :: post)).involved)
        (aggregate (pre ++ (p, q) :: post)).wfc = some q1 := by
      rw [routesMinCost_eq_foldl_map, hinvol]
      exact hq1
    refine ⟨pythonRound q1, pythonRound q2, ?_, ?_, pythonRound_mono hle⟩
    · simp only [_calculate_overall_minimum_cost, if_neg hinv, hq1m]
    · simp only [_calculate_overall_minimum_cost, if_neg hinv2, hq2]

/-- Witness for claim C6: raising the quantity of product A from 1 to 2. -/
theorem claim_C6_witness :
    (0 : ℤ) < 1 ∧ (1 : ℤ) ≤ 2 ∧ (findProduct "A").isSome ∧
    (∃ m m' : ℤ,
      _calculate_overall_minimum_cost ([] ++ ("A", 1) :: []) =
        (some m, none) ∧
      _calculate_overall_minimum_cost ([] ++ ("A", 2) :: []) =
        (some m', none) ∧
      m ≤ m') :=
  ⟨by decide, by decide, by decide,
    claim_C6 [] [] "A" 1 2 (by decide) (by decide) (by decide)⟩
